import Mathlib

/-!
Verification of the hybrid-search (RRF fusion) engine of `search_backend.py`.

The heart of the repository is `SearchBackend.search_shakespeare_hybrid`
(src/src/search_backend.py, lines 432-605): it retrieves a lexical ranked
list and (when the semantic index exists) a dense-semantic ranked list, then
fuses them manually with Reciprocal Rank Fusion and paginates the result.

We embed the fusion part shallowly:
* the two retrieved result sets are inputs (`SearchResult`), since retrieval
  itself is delegated to the external Elasticsearch service;
* Python `dict`s are insertion-ordered association lists (`List (Int × _)`),
  matching CPython semantics: assignment to an existing key keeps its
  position, a new key is appended;
* Python `sorted(..., key=..., reverse=True)` is a stable descending sort,
  modelled by the stable `List.insertionSort` with the reversed comparison;
* Python slice `xs[a:b]` is modelled by `pySlice`, including negative-index
  normalisation;
* floating point scores `1.0 / (i + 1 + k)` are modelled exactly in `ℚ`.
-/

/-- A processed hit as produced by `search_shakespeare` /
`search_shakespeare_semantic_dense` (search_backend.py lines 160-170):
source fields plus the highlight list. -/
structure Hit where
  play_name : String
  speaker : String
  text_entry : String
  line_id : Int
  ty : String
  highlight : List String
deriving DecidableEq, Repr

/-- The result dictionary returned by the single-mode searches
(search_backend.py lines 150-157): engine-reported total, processed hits in
rank order, and the play facet buckets.  (The `elasticsearch_query` debug
field carries no data used by fusion and is omitted.) -/
structure SearchResult where
  total : Nat
  hits : List Hit
  aggregations : List (String × Nat)
deriving DecidableEq, Repr

/-- The line ids of a hit list, in rank order. -/
def hitIds (hits : List Hit) : List Int :=
  hits.map (fun h => h.line_id)

/-! ### Python dict of RRF scores (`rrf_scores`) -/

abbrev ScoreDict := List (Int × ℚ)

/-- Lookup `rrf_scores.get(id, 0)`. -/
def dictGetD : ScoreDict → Int → ℚ
  | [], _ => 0
  | p :: rest, id => if p.1 = id then p.2 else dictGetD rest id

/-- `rrf_scores[id] = rrf_scores.get(id, 0) + v` with CPython dict
semantics: an existing key keeps its position, a fresh key is appended. -/
def dictAdd : ScoreDict → Int → ℚ → ScoreDict
  | [], id, v => [(id, v)]
  | p :: rest, id, v => if p.1 = id then (p.1, p.2 + v) :: rest else p :: dictAdd rest id v

/-- The RRF contribution `1.0 / (i + 1 + k)` of 0-based position `i`
(search_backend.py lines 557 and 563). -/
def rrfContrib (k : ℚ) (i : Nat) : ℚ :=
  1 / ((i : ℚ) + 1 + k)

/-- The scoring loop `for i, hit in enumerate(results["hits"]): ...`
(search_backend.py lines 555-557 and 561-563), starting at index `i`. -/
def scoreHits (k : ℚ) : List Hit → Nat → ScoreDict → ScoreDict
  | [], _, d => d
  | h :: rest, i, d => scoreHits k rest (i + 1) (dictAdd d h.line_id (rrfContrib k i))

/-- `sorted(rrf_scores.keys(), key=lambda x: rrf_scores[x], reverse=True)`
(search_backend.py line 566): dict keys in insertion order, stably sorted by
descending score.  CPython's `sorted` is a stable sort; a stable sort's
output is uniquely determined by the input order and the (total) comparison,
so we model it by the stable `List.insertionSort` with the reversed
comparison. -/
def sortedLineIds (d : ScoreDict) : List Int :=
  (d.map Prod.fst).insertionSort (fun a b => dictGetD d b ≤ dictGetD d a)

/-! ### Python dict of display payloads (`hits_by_id`) -/

abbrev HitDict := List (Int × Hit)

/-- Dict membership test / lookup for the payload table
(`line_id in hits_by_id`, `hits_by_id[line_id]`). -/
def hitDictGet? : HitDict → Int → Option Hit
  | [], _ => none
  | p :: rest, id => if p.1 = id then some p.2 else hitDictGet? rest id

/-- `hits_by_id[key] = hit` (search_backend.py line 571): unconditional
assignment; an existing key keeps its position, a fresh key is appended. -/
def hitDictSet : HitDict → Int → Hit → HitDict
  | [], id, h => [(id, h)]
  | p :: rest, id, h => if p.1 = id then (p.1, h) :: rest else p :: hitDictSet rest id h

/-- `if hit["line_id"] not in hits_by_id: hits_by_id[...] = hit`
(search_backend.py lines 574-575). -/
def hitDictSetIfAbsent (d : HitDict) (h : Hit) : HitDict :=
  if (hitDictGet? d h.line_id).isSome then d else d ++ [(h.line_id, h)]

/-- Payload resolution table (search_backend.py lines 569-575): all lexical
hits first (overwriting), then semantic hits only for absent ids. -/
def hitsById (termHits semHits : List Hit) : HitDict :=
  semHits.foldl hitDictSetIfAbsent (termHits.foldl (fun d h => hitDictSet d h.line_id h) [])

/-! ### Python slicing -/

/-- Normalise one Python slice endpoint against a list of length `n`. -/
def pyBound (n : Nat) (i : Int) : Nat :=
  if i < 0 then (max ((n : Int) + i) 0).toNat else min i.toNat n

/-- Python `xs[a:b]` (step 1). -/
def pySlice (xs : List α) (a b : Int) : List α :=
  (xs.take (pyBound xs.length b)).drop (pyBound xs.length a)

/-! ### The fusion engine -/

/-- `[] if semantic_results is None`, in effect: the scoring loop and the
payload loop over semantic hits run exactly when `semantic_results` is
non-None (search_backend.py lines 560-563, 572-575). -/
def semHitsOf : Option SearchResult → List Hit
  | some s => s.hits
  | none => []

/-- The `rrf_scores` dict after both scoring loops
(search_backend.py lines 551-563). -/
def fusedScores (k : ℚ) (term_results : SearchResult)
    (semantic_results : Option SearchResult) : ScoreDict :=
  scoreHits k (semHitsOf semantic_results) 0 (scoreHits k term_results.hits 0 [])

/-- `sorted_line_ids` (search_backend.py line 566): the full fused
identifier order before pagination. -/
def fusedOrder (k : ℚ) (term_results : SearchResult)
    (semantic_results : Option SearchResult) : List Int :=
  sortedLineIds (fusedScores k term_results semantic_results)

/-- The manual RRF fusion of `search_shakespeare_hybrid`
(search_backend.py lines 550-605), with the rank constant `k` abstracted as
a parameter (the source fixes `k = 60` on line 552). -/
def rrfFuse (k : ℚ) (term_results : SearchResult)
    (semantic_results : Option SearchResult) (from_ size : Int) : SearchResult :=
  let sorted_line_ids := fusedOrder k term_results semantic_results
  let hits_by_id := hitsById term_results.hits (semHitsOf semantic_results)
  let paginated_ids := pySlice sorted_line_ids from_ (from_ + size)
  let paginated_hits := paginated_ids.filterMap (fun id => hitDictGet? hits_by_id id)
  { total := sorted_line_ids.length
    hits := paginated_hits
    aggregations := term_results.aggregations }

/-- `search_shakespeare_hybrid` after the two retrieval calls: the source
hardcodes the rank constant `k = 60` (line 552) and retrieves the top 100
candidates from each source (lines 540 and 546). -/
def search_shakespeare_hybrid (term_results : SearchResult)
    (semantic_results : Option SearchResult) (from_ size : Int) : SearchResult :=
  rrfFuse 60 term_results semantic_results from_ size

/-! ### Spec-side score formula (for the refinement claims)

The spec (§8) states the fused score of an identifier as
`(1/(rank_in_L+k) if present else 0) + (1/(rank_in_S+k) if present else 0)`
with 1-based ranks.  `rankContrib` is that formula, written from the spec's
words, to be compared with the score dict the code builds. -/

/-- 0-based position of the first hit with the given id, if any. -/
def rankIdx? : List Hit → Int → Option Nat
  | [], _ => none
  | h :: rest, id => if h.line_id = id then some 0 else (rankIdx? rest id).map (· + 1)

/-- Modelled from the spec: `1/(rank_in_list + k)` when the identifier is
present in the list (rank = 0-based position + 1), else `0`. -/
def rankContrib (k : ℚ) (hits : List Hit) (id : Int) : ℚ :=
  match rankIdx? hits id with
  | some i => rrfContrib k i
  | none => 0

/-- First hit with the given id in a ranked list, if any. -/
def hitFind? : List Hit → Int → Option Hit
  | [], _ => none
  | h :: rest, id => if h.line_id = id then some h else hitFind? rest id

/-- Modelled from the spec (§4.1 step 5): "prefer the Hit object from the
lexical list if present, else fall back to the semantic list's Hit
object". -/
def preferLexical (termHits semHits : List Hit) (id : Int) : Option Hit :=
  match hitFind? termHits id with
  | some h => some h
  | none => hitFind? semHits id

/-- RRF contribution starting at enumeration index `i`: the value the
scoring loop, entered with counter `i`, adds for identifier `id`. -/
def contribFrom (k : ℚ) (i : Nat) (hits : List Hit) (id : Int) : ℚ :=
  match rankIdx? hits id with
  | some j => rrfContrib k (i + j)
  | none => 0

/-- The keys of a score dict, in insertion order. -/
def dictKeys (d : ScoreDict) : List Int :=
  d.map Prod.fst

/-- The keys of a payload dict, in insertion order. -/
def hitDictKeys (d : HitDict) : List Int :=
  d.map Prod.fst

/-! ### Sample data (the worked example of spec §8) -/

/-- A display payload whose only distinguishing field is its line id. -/
def mkHit (id : Int) : Hit :=
  { play_name := "p", speaker := "s", text_entry := "t", line_id := id,
    ty := "line", highlight := [] }

/-- Sample lexical result: ids 1, 2, 3 at ranks 1, 2, 3. -/
def sampleLex : SearchResult :=
  { total := 3, hits := [mkHit 1, mkHit 2, mkHit 3], aggregations := [("Hamlet", 5)] }

/-- Sample semantic result: ids 2, 4 at ranks 1, 2. -/
def sampleSem : SearchResult :=
  { total := 2, hits := [mkHit 2, mkHit 4], aggregations := [] }

/-- Tie example, lexical side: a single hit at rank 1. -/
def tieLex : SearchResult :=
  { total := 1, hits := [mkHit 1], aggregations := [] }

/-- Tie example, semantic side: a single different hit at rank 1, so both
identifiers get the same fused score `1/(1+k)`. -/
def tieSem : SearchResult :=
  { total := 1, hits := [mkHit 2], aggregations := [] }

/-! ### Lemmas: the score dict -/

theorem dictGetD_dictAdd (d : ScoreDict) (id id' : Int) (v : ℚ) :
    dictGetD (dictAdd d id v) id' =
      if id' = id then dictGetD d id' + v else dictGetD d id' := by
  induction d with
  | nil =>
    simp only [dictAdd]
    by_cases h : id' = id
    · subst h; simp [dictGetD]
    · simp only [dictGetD, if_neg h]
      rw [if_neg (fun hc : id = id' => h hc.symm)]
  | cons p rest ih =>
    simp only [dictAdd]
    by_cases hp : p.1 = id
    · rw [if_pos hp]
      by_cases h : id' = id
      · subst h; simp [dictGetD, hp]
      · have hne : ¬ p.1 = id' := fun hc => h (hp ▸ hc.symm)
        simp [dictGetD, hne, h]
    · rw [if_neg hp]
      by_cases hq : p.1 = id'
      · have h : ¬ id' = id := fun hc => hp (hq.trans hc)
        simp [dictGetD, hq, h]
      · simp [dictGetD, hq, ih]

theorem dictKeys_dictAdd (d : ScoreDict) (id : Int) (v : ℚ) :
    dictKeys (dictAdd d id v) =
      if id ∈ dictKeys d then dictKeys d else dictKeys d ++ [id] := by
  induction d with
  | nil => simp [dictAdd, dictKeys]
  | cons p rest ih =>
    by_cases hp : p.1 = id
    · simp [dictAdd, dictKeys, hp]
    · have hne : ¬ id = p.1 := fun hc => hp hc.symm
      simp only [dictAdd, if_neg hp, dictKeys, List.map_cons]
      by_cases hm : id ∈ dictKeys rest
      · simp only [dictKeys] at ih hm
        simp [ih, hm, List.mem_cons, hne]
      · simp only [dictKeys] at ih hm
        simp [ih, hm, List.mem_cons, hne]

theorem mem_dictKeys_dictAdd (d : ScoreDict) (id : Int) (v : ℚ) (id' : Int) :
    id' ∈ dictKeys (dictAdd d id v) ↔ id' ∈ dictKeys d ∨ id' = id := by
  rw [dictKeys_dictAdd]
  by_cases hm : id ∈ dictKeys d
  · rw [if_pos hm]
    exact ⟨Or.inl, fun h => h.elim (fun h => h) (fun h => h ▸ hm)⟩
  · rw [if_neg hm]; simp

theorem nodup_dictKeys_dictAdd (d : ScoreDict) (id : Int) (v : ℚ)
    (h : (dictKeys d).Nodup) : (dictKeys (dictAdd d id v)).Nodup := by
  rw [dictKeys_dictAdd]
  by_cases hm : id ∈ dictKeys d
  · rwa [if_pos hm]
  · rw [if_neg hm]
    simpa [List.nodup_append, h] using hm

/-! ### Lemmas: ranks -/

theorem rankIdx?_eq_none_iff (hits : List Hit) (id : Int) :
    rankIdx? hits id = none ↔ id ∉ hitIds hits := by
  induction hits with
  | nil => simp [rankIdx?, hitIds]
  | cons h rest ih =>
    by_cases hh : h.line_id = id
    · simp [rankIdx?, hitIds, hh]
    · have : ¬ id = h.line_id := fun hc => hh hc.symm
      simp [rankIdx?, hitIds, hh, ih, this, hitIds, Option.map_eq_none]

theorem nodup_hitIds_cons {h : Hit} {rest : List Hit}
    (hnd : (hitIds (h :: rest)).Nodup) :
    h.line_id ∉ hitIds rest ∧ (hitIds rest).Nodup := by
  simp only [hitIds, List.map_cons, List.nodup_cons] at hnd
  exact hnd

theorem rankIdx?_getElem (hits : List Hit) (hnd : (hitIds hits).Nodup) :
    ∀ (i : Nat) (hi : i < hits.length),
      rankIdx? hits (hits[i].line_id) = some i := by
  induction hits with
  | nil => intro i hi; simp at hi
  | cons h rest ih =>
    intro i hi
    match i with
    | 0 => simp [rankIdx?]
    | n + 1 =>
      have hn : n < rest.length := by simpa using hi
      have hmem : rest[n].line_id ∈ hitIds rest := by
        simp only [hitIds, List.mem_map]
        exact ⟨rest[n], List.getElem_mem hn, rfl⟩
      have hne : ¬ h.line_id = rest[n].line_id :=
        fun hc => (nodup_hitIds_cons hnd).1 (hc ▸ hmem)
      simp [rankIdx?, hne, ih (nodup_hitIds_cons hnd).2 n hn]

/-! ### Lemmas: the scoring loop -/

theorem scoreHits_getD (k : ℚ) (hits : List Hit) :
    ∀ (i : Nat) (d : ScoreDict) (id : Int), (hitIds hits).Nodup →
      dictGetD (scoreHits k hits i d) id = dictGetD d id + contribFrom k i hits id := by
  induction hits with
  | nil => intro i d id _; simp [scoreHits, contribFrom, rankIdx?]
  | cons h rest ih =>
    intro i d id hnd
    have hhead : h.line_id ∉ hitIds rest := (nodup_hitIds_cons hnd).1
    have hnd' : (hitIds rest).Nodup := (nodup_hitIds_cons hnd).2
    simp only [scoreHits]
    rw [ih (i + 1) _ id hnd', dictGetD_dictAdd]
    by_cases hid : id = h.line_id
    · subst hid
      have hnone : rankIdx? rest h.line_id = none :=
        (rankIdx?_eq_none_iff rest h.line_id).mpr hhead
      simp [contribFrom, rankIdx?, hnone]
    · have hne : ¬ h.line_id = id := fun hc => hid hc.symm
      rw [if_neg hid]
      simp only [contribFrom, rankIdx?, if_neg hne]
      cases hr : rankIdx? rest id with
      | none => simp [hr]
      | some j =>
        have harith : i + 1 + j = i + (j + 1) := by omega
        simp [hr, harith]

theorem mem_scoreHits_keys (k : ℚ) (hits : List Hit) :
    ∀ (i : Nat) (d : ScoreDict) (id : Int),
      id ∈ dictKeys (scoreHits k hits i d) ↔ id ∈ dictKeys d ∨ id ∈ hitIds hits := by
  induction hits with
  | nil => intro i d id; simp [scoreHits, hitIds]
  | cons h rest ih =>
    intro i d id
    simp only [scoreHits]
    rw [ih, mem_dictKeys_dictAdd]
    simp only [hitIds, List.map_cons, List.mem_cons]
    tauto

theorem nodup_scoreHits_keys (k : ℚ) (hits : List Hit) :
    ∀ (i : Nat) (d : ScoreDict), (dictKeys d).Nodup →
      (dictKeys (scoreHits k hits i d)).Nodup := by
  induction hits with
  | nil => intro i d h; simpa [scoreHits]
  | cons h rest ih =>
    intro i d hd
    simp only [scoreHits]
    exact ih _ _ (nodup_dictKeys_dictAdd _ _ _ hd)

theorem scoreHits_keys_of_disjoint (k : ℚ) (hits : List Hit) :
    ∀ (i : Nat) (d : ScoreDict), (hitIds hits).Nodup →
      (∀ id ∈ hitIds hits, id ∉ dictKeys d) →
      dictKeys (scoreHits k hits i d) = dictKeys d ++ hitIds hits := by
  induction hits with
  | nil => intro i d _ _; simp [scoreHits, hitIds]
  | cons h rest ih =>
    intro i d hnd hdisj
    have hhead : h.line_id ∉ hitIds rest := (nodup_hitIds_cons hnd).1
    have hnd' : (hitIds rest).Nodup := (nodup_hitIds_cons hnd).2
    have hmemh : h.line_id ∈ hitIds (h :: rest) := by
      simp [hitIds]
    simp only [scoreHits]
    rw [ih _ _ hnd' ?_]
    · rw [dictKeys_dictAdd, if_neg (hdisj _ hmemh)]
      simp [hitIds]
    · intro id hid
      rw [mem_dictKeys_dictAdd]
      rintro (hmem | rfl)
      · refine hdisj id ?_ hmem
        simp only [hitIds, List.map_cons, List.mem_cons]
        exact Or.inr (by simpa [hitIds] using hid)
      · exact hhead hid

/-! ### Lemmas: the fused score dict -/

theorem contribFrom_zero (k : ℚ) (hits : List Hit) (id : Int) :
    contribFrom k 0 hits id = rankContrib k hits id := by
  unfold contribFrom rankContrib
  cases rankIdx? hits id <;> simp

theorem fusedScores_getD (k : ℚ) (term sem : SearchResult)
    (hL : (hitIds term.hits).Nodup) (hS : (hitIds sem.hits).Nodup) (id : Int) :
    dictGetD (fusedScores k term (some sem)) id =
      rankContrib k term.hits id + rankContrib k sem.hits id := by
  unfold fusedScores semHitsOf
  rw [scoreHits_getD k sem.hits 0 _ id hS, scoreHits_getD k term.hits 0 _ id hL]
  simp only [dictGetD, contribFrom_zero]
  ring

theorem mem_fusedScores_keys (k : ℚ) (term : SearchResult)
    (sem : Option SearchResult) (id : Int) :
    id ∈ dictKeys (fusedScores k term sem) ↔
      id ∈ hitIds term.hits ∨ id ∈ hitIds (semHitsOf sem) := by
  unfold fusedScores
  rw [mem_scoreHits_keys, mem_scoreHits_keys]
  simp only [dictKeys, List.map_nil, List.not_mem_nil, false_or]

theorem nodup_fusedScores_keys (k : ℚ) (term : SearchResult)
    (sem : Option SearchResult) : (dictKeys (fusedScores k term sem)).Nodup := by
  unfold fusedScores
  exact nodup_scoreHits_keys _ _ _ _
    (nodup_scoreHits_keys _ _ _ _ (by simp [dictKeys]))

/-! ### Lemmas: the fused order -/

theorem fusedOrder_perm_keys (k : ℚ) (term : SearchResult)
    (sem : Option SearchResult) :
    List.Perm (fusedOrder k term sem) (dictKeys (fusedScores k term sem)) :=
  List.perm_insertionSort _ _

theorem mem_fusedOrder (k : ℚ) (term : SearchResult)
    (sem : Option SearchResult) (id : Int) :
    id ∈ fusedOrder k term sem ↔
      id ∈ hitIds term.hits ∨ id ∈ hitIds (semHitsOf sem) := by
  rw [(fusedOrder_perm_keys k term sem).mem_iff]
  exact mem_fusedScores_keys k term sem id

theorem nodup_fusedOrder (k : ℚ) (term : SearchResult)
    (sem : Option SearchResult) : (fusedOrder k term sem).Nodup :=
  ((fusedOrder_perm_keys k term sem).nodup_iff).mpr (nodup_fusedScores_keys k term sem)

theorem length_fusedOrder (k : ℚ) (term : SearchResult)
    (sem : Option SearchResult) :
    (fusedOrder k term sem).length = (dictKeys (fusedScores k term sem)).length :=
  (fusedOrder_perm_keys k term sem).length_eq

/-! ### Lemmas: degradation to lexical order -/

theorem fusedScores_semEmpty (k : ℚ) (term : SearchResult)
    (sem : Option SearchResult) (hsem : semHitsOf sem = []) :
    fusedScores k term sem = scoreHits k term.hits 0 [] := by
  unfold fusedScores
  rw [hsem]
  rfl

theorem lexScores_keys (k : ℚ) (hits : List Hit) (hnd : (hitIds hits).Nodup) :
    dictKeys (scoreHits k hits 0 []) = hitIds hits := by
  have h := scoreHits_keys_of_disjoint k hits 0 [] hnd (by simp [dictKeys])
  simpa [dictKeys] using h

theorem lexScores_getD_getElem (k : ℚ) (hits : List Hit)
    (hnd : (hitIds hits).Nodup) (i : Nat) (hi : i < hits.length) :
    dictGetD (scoreHits k hits 0 []) (hits[i].line_id) = rrfContrib k i := by
  rw [scoreHits_getD k hits 0 [] _ hnd]
  simp [dictGetD, contribFrom, rankIdx?_getElem hits hnd i hi]

theorem rrfContrib_le_of_le (k : ℚ) (hk : 0 < k) {i j : Nat} (hij : i ≤ j) :
    rrfContrib k j ≤ rrfContrib k i := by
  unfold rrfContrib
  have h1 : (0 : ℚ) < (i : ℚ) + 1 + k := by positivity
  have h2 : (i : ℚ) + 1 + k ≤ (j : ℚ) + 1 + k := by
    have hc : (i : ℚ) ≤ (j : ℚ) := by exact_mod_cast hij
    linarith
  exact one_div_le_one_div_of_le h1 h2

theorem fusedOrder_semEmpty (k : ℚ) (hk : 0 < k) (term : SearchResult)
    (sem : Option SearchResult) (hsem : semHitsOf sem = [])
    (hnd : (hitIds term.hits).Nodup) :
    fusedOrder k term sem = hitIds term.hits := by
  unfold fusedOrder sortedLineIds
  rw [fusedScores_semEmpty k term sem hsem]
  have hkeys : (scoreHits k term.hits 0 []).map Prod.fst = hitIds term.hits :=
    lexScores_keys k term.hits hnd
  rw [hkeys]
  apply List.Sorted.insertionSort_eq
  show List.Pairwise _ _
  rw [List.pairwise_iff_getElem]
  intro i j hi hj hij
  have hi' : i < term.hits.length := by simpa [hitIds] using hi
  have hj' : j < term.hits.length := by simpa [hitIds] using hj
  have hgi : (hitIds term.hits)[i] = (term.hits[i]).line_id := by
    simp [hitIds]
  have hgj : (hitIds term.hits)[j] = (term.hits[j]).line_id := by
    simp [hitIds]
  rw [hgi, hgj, lexScores_getD_getElem k term.hits hnd i hi',
    lexScores_getD_getElem k term.hits hnd j hj']
  exact rrfContrib_le_of_le k hk (Nat.le_of_lt hij)

/-! ### Lemmas: the payload dict -/

theorem hitFind?_eq_none_iff (hits : List Hit) (id : Int) :
    hitFind? hits id = none ↔ id ∉ hitIds hits := by
  induction hits with
  | nil => simp [hitFind?, hitIds]
  | cons h rest ih =>
    by_cases hh : h.line_id = id
    · simp [hitFind?, hitIds, hh]
    · have hne : ¬ id = h.line_id := fun hc => hh hc.symm
      simp [hitFind?, hitIds, hh, ih, hne]

theorem hitDictGet?_set (d : HitDict) (key : Int) (h : Hit) (id : Int) :
    hitDictGet? (hitDictSet d key h) id =
      if key = id then some h else hitDictGet? d id := by
  induction d with
  | nil => simp [hitDictSet, hitDictGet?]
  | cons p rest ih =>
    simp only [hitDictSet]
    by_cases hp : p.1 = key
    · rw [if_pos hp]
      simp only [hitDictGet?]
      by_cases hq : key = id
      · have h1 : p.1 = id := hp.trans hq
        simp [h1, hq]
      · have h1 : ¬ p.1 = id := fun hc => hq (hp.symm.trans hc)
        simp [h1, hq]
    · rw [if_neg hp]
      simp only [hitDictGet?]
      by_cases hr : p.1 = id
      · have h1 : ¬ key = id := fun hc => hp (hr.trans hc.symm)
        simp [hr, h1]
      · simp [hr, ih]

theorem hitDictGet?_append (d₁ d₂ : HitDict) (id : Int) :
    hitDictGet? (d₁ ++ d₂) id =
      match hitDictGet? d₁ id with
      | some h => some h
      | none => hitDictGet? d₂ id := by
  induction d₁ with
  | nil => simp [hitDictGet?]
  | cons p rest ih =>
    by_cases hp : p.1 = id <;> simp [hitDictGet?, hp, ih]

theorem hitDictGet?_setIfAbsent (d : HitDict) (h : Hit) (id : Int) :
    hitDictGet? (hitDictSetIfAbsent d h) id =
      match hitDictGet? d id with
      | some h' => some h'
      | none => if h.line_id = id then some h else none := by
  unfold hitDictSetIfAbsent
  by_cases hm : (hitDictGet? d h.line_id).isSome
  · rw [if_pos hm]
    cases hd : hitDictGet? d id with
    | some h' => rfl
    | none =>
      by_cases hq : h.line_id = id
      · rw [hq] at hm
        rw [hd] at hm
        simp at hm
      · simp [hq]
  · rw [if_neg hm, hitDictGet?_append]
    cases hd : hitDictGet? d id with
    | some h' => rfl
    | none => simp [hitDictGet?]

theorem hitDictGet?_isSome_iff (d : HitDict) (id : Int) :
    (hitDictGet? d id).isSome ↔ id ∈ hitDictKeys d := by
  induction d with
  | nil => simp [hitDictGet?, hitDictKeys]
  | cons p rest ih =>
    by_cases hp : p.1 = id
    · simp [hitDictGet?, hitDictKeys, hp]
    · have hne : ¬ id = p.1 := fun hc => hp hc.symm
      simp [hitDictGet?, hitDictKeys, hp, hne, ih]

theorem hitDictGet?_mem (d : HitDict) (id : Int) (h : Hit) :
    hitDictGet? d id = some h → (id, h) ∈ d := by
  induction d with
  | nil => intro hc; simp [hitDictGet?] at hc
  | cons p rest ih =>
    intro hs
    simp only [hitDictGet?] at hs
    by_cases hp : p.1 = id
    · rw [if_pos hp] at hs
      obtain ⟨pk, pv⟩ := p
      simp only at hp
      injection hs with hs'
      subst hp
      subst hs'
      exact List.mem_cons_self _ _
    · rw [if_neg hp] at hs
      exact List.mem_cons_of_mem p (ih hs)

theorem mem_hitDictKeys_set (d : HitDict) (key : Int) (h : Hit) (id : Int) :
    id ∈ hitDictKeys (hitDictSet d key h) ↔ id ∈ hitDictKeys d ∨ id = key := by
  induction d with
  | nil => simp [hitDictSet, hitDictKeys]
  | cons p rest ih =>
    simp only [hitDictSet]
    by_cases hp : p.1 = key
    · rw [if_pos hp]
      simp only [hitDictKeys, List.map_cons, List.mem_cons]
      constructor
      · rintro (rfl | hm)
        · exact Or.inl (Or.inl rfl)
        · exact Or.inl (Or.inr hm)
      · rintro ((rfl | hm) | rfl)
        · exact Or.inl rfl
        · exact Or.inr hm
        · exact Or.inl hp.symm
    · rw [if_neg hp]
      simp only [hitDictKeys, List.map_cons, List.mem_cons]
      simp only [hitDictKeys] at ih
      rw [ih]
      tauto

theorem mem_hitDictKeys_setIfAbsent (d : HitDict) (h : Hit) (id : Int) :
    id ∈ hitDictKeys (hitDictSetIfAbsent d h) ↔
      id ∈ hitDictKeys d ∨ id = h.line_id := by
  unfold hitDictSetIfAbsent
  by_cases hm : (hitDictGet? d h.line_id).isSome
  · rw [if_pos hm]
    have hmem : h.line_id ∈ hitDictKeys d := (hitDictGet?_isSome_iff d h.line_id).mp hm
    exact ⟨Or.inl, fun hc => hc.elim (fun hc => hc) (fun hc => hc ▸ hmem)⟩
  · rw [if_neg hm]
    simp [hitDictKeys]

theorem mem_keys_lexFold (L : List Hit) :
    ∀ (d : HitDict) (id : Int),
      id ∈ hitDictKeys (L.foldl (fun d h => hitDictSet d h.line_id h) d) ↔
        id ∈ hitDictKeys d ∨ id ∈ hitIds L := by
  induction L with
  | nil => intro d id; simp [hitIds]
  | cons h rest ih =>
    intro d id
    simp only [List.foldl_cons]
    rw [ih, mem_hitDictKeys_set]
    simp only [hitIds, List.map_cons, List.mem_cons]
    tauto

theorem mem_keys_semFold (S : List Hit) :
    ∀ (d : HitDict) (id : Int),
      id ∈ hitDictKeys (S.foldl hitDictSetIfAbsent d) ↔
        id ∈ hitDictKeys d ∨ id ∈ hitIds S := by
  induction S with
  | nil => intro d id; simp [hitIds]
  | cons h rest ih =>
    intro d id
    simp only [List.foldl_cons]
    rw [ih, mem_hitDictKeys_setIfAbsent]
    simp only [hitIds, List.map_cons, List.mem_cons]
    tauto

theorem mem_hitsById_keys (L S : List Hit) (id : Int) :
    id ∈ hitDictKeys (hitsById L S) ↔ id ∈ hitIds L ∨ id ∈ hitIds S := by
  unfold hitsById
  rw [mem_keys_semFold, mem_keys_lexFold]
  simp only [hitDictKeys, List.map_nil, List.not_mem_nil, false_or]

theorem hitDictSet_line_id : ∀ (d : HitDict) (h : Hit),
    (∀ p ∈ d, (p.2).line_id = p.1) →
    ∀ p ∈ hitDictSet d h.line_id h, (p.2).line_id = p.1 := by
  intro d h
  induction d with
  | nil =>
    intro _ p hp
    simp only [hitDictSet, List.mem_singleton] at hp
    subst hp
    rfl
  | cons q rest ih =>
    intro hinv p hp
    simp only [hitDictSet] at hp
    by_cases hq : q.1 = h.line_id
    · rw [if_pos hq] at hp
      rcases List.mem_cons.mp hp with rfl | hmem
      · exact hq.symm
      · exact hinv p (List.mem_cons_of_mem q hmem)
    · rw [if_neg hq] at hp
      rcases List.mem_cons.mp hp with rfl | hmem
      · exact hinv _ (List.mem_cons_self _ _)
      · exact ih (fun r hr => hinv r (List.mem_cons_of_mem q hr)) p hmem

theorem hitDictSetIfAbsent_line_id (d : HitDict) (h : Hit)
    (hinv : ∀ p ∈ d, (p.2).line_id = p.1) :
    ∀ p ∈ hitDictSetIfAbsent d h, (p.2).line_id = p.1 := by
  unfold hitDictSetIfAbsent
  by_cases hm : (hitDictGet? d h.line_id).isSome
  · rw [if_pos hm]; exact hinv
  · rw [if_neg hm]
    intro p hp
    rcases List.mem_append.mp hp with hmem | hmem
    · exact hinv p hmem
    · simp only [List.mem_singleton] at hmem
      subst hmem
      rfl

theorem lexFold_line_id (L : List Hit) :
    ∀ (d : HitDict), (∀ p ∈ d, (p.2).line_id = p.1) →
      ∀ p ∈ L.foldl (fun d h => hitDictSet d h.line_id h) d, (p.2).line_id = p.1 := by
  induction L with
  | nil => intro d hinv; exact hinv
  | cons h rest ih =>
    intro d hinv
    simp only [List.foldl_cons]
    exact ih _ (hitDictSet_line_id d h hinv)

theorem semFold_line_id (S : List Hit) :
    ∀ (d : HitDict), (∀ p ∈ d, (p.2).line_id = p.1) →
      ∀ p ∈ S.foldl hitDictSetIfAbsent d, (p.2).line_id = p.1 := by
  induction S with
  | nil => intro d hinv; exact hinv
  | cons h rest ih =>
    intro d hinv
    simp only [List.foldl_cons]
    exact ih _ (hitDictSetIfAbsent_line_id d h hinv)

theorem hitsById_line_id (L S : List Hit) :
    ∀ p ∈ hitsById L S, (p.2).line_id = p.1 := by
  unfold hitsById
  exact semFold_line_id S _ (lexFold_line_id L [] (by simp))

theorem hitsById_lookup_success (L S : List Hit) (id : Int)
    (hid : id ∈ hitIds L ∨ id ∈ hitIds S) :
    ∃ h, hitDictGet? (hitsById L S) id = some h ∧ h.line_id = id := by
  have hk : id ∈ hitDictKeys (hitsById L S) := (mem_hitsById_keys L S id).mpr hid
  have hs : (hitDictGet? (hitsById L S) id).isSome :=
    (hitDictGet?_isSome_iff _ id).mpr hk
  obtain ⟨h, hh⟩ := Option.isSome_iff_exists.mp hs
  exact ⟨h, hh, hitsById_line_id L S (id, h) (hitDictGet?_mem _ _ _ hh)⟩

theorem hitIds_filterMap_lookup (L S : List Hit) (ids : List Int)
    (hids : ∀ id ∈ ids, id ∈ hitIds L ∨ id ∈ hitIds S) :
    hitIds (ids.filterMap (fun id => hitDictGet? (hitsById L S) id)) = ids := by
  induction ids with
  | nil => simp [hitIds]
  | cons a rest ih =>
    obtain ⟨h, hsome, hlid⟩ := hitsById_lookup_success L S a (hids a (by simp))
    simp only [List.filterMap_cons, hsome, hitIds, List.map_cons]
    rw [hlid]
    have := ih (fun id hm => hids id (List.mem_cons_of_mem a hm))
    simp only [hitIds] at this
    rw [this]

/-! ### Lemmas: Python slicing -/

theorem pySlice_natCast (xs : List α) (f s : ℕ) :
    pySlice xs (f : ℤ) ((f : ℤ) + (s : ℕ)) = (xs.drop f).take s := by
  unfold pySlice pyBound
  rw [if_neg (by omega), if_neg (by omega)]
  have h1 : ((f : ℤ) + (s : ℕ)).toNat = f + s := by omega
  have h2 : ((f : ℤ)).toNat = f := by omega
  rw [h1, h2, List.take_drop]
  rcases le_or_lt f xs.length with hf | hf
  · rw [min_eq_left hf]
    rcases le_or_lt (f + s) xs.length with hfs | hfs
    · rw [min_eq_left hfs]
    · rw [min_eq_right (le_of_lt hfs), List.take_length,
        List.take_of_length_le (le_of_lt hfs)]
  · rw [min_eq_right (le_of_lt hf)]
    rw [List.drop_eq_nil_of_le, List.drop_eq_nil_of_le]
    · rw [List.length_take]
      exact le_trans (min_le_right _ _) (le_of_lt hf)
    · rw [List.length_take]
      exact min_le_right _ _

theorem pySlice_sublist (xs : List α) (a b : Int) :
    List.Sublist (pySlice xs a b) xs :=
  ((xs.take (pyBound xs.length b)).drop_sublist _).trans (xs.take_sublist _)

theorem pySlice_self_empty (xs : List α) (f : Int) : pySlice xs f f = [] := by
  unfold pySlice
  apply List.drop_eq_nil_of_le
  rw [List.length_take]
  exact min_le_left _ _

theorem pySlice_concat_take (xs : List α) (s : ℕ) :
    ∀ m : ℕ, (List.range m).flatMap
        (fun i => pySlice xs ((i * s : ℕ) : ℤ) (((i * s : ℕ) : ℤ) + (s : ℕ))) =
      xs.take (m * s) := by
  intro m
  induction m with
  | zero => simp
  | succ n ih =>
    rw [List.range_succ, List.flatMap_append, ih]
    simp only [List.flatMap_cons, List.flatMap_nil, List.append_nil]
    rw [pySlice_natCast, List.take_drop]
    have h1 : (xs.take (n * s + s)).take (n * s) = xs.take (n * s) := by
      rw [List.take_take, min_eq_left (by omega)]
    rw [← h1, List.take_append_drop]
    congr 1
    rw [Nat.succ_mul]

/-! ### Lemmas: the returned page -/

theorem rrfFuse_hitIds (k : ℚ) (term : SearchResult) (sem : Option SearchResult)
    (f s : Int) :
    hitIds (rrfFuse k term sem f s).hits = pySlice (fusedOrder k term sem) f (f + s) := by
  show hitIds ((pySlice (fusedOrder k term sem) f (f + s)).filterMap
      (fun id => hitDictGet? (hitsById term.hits (semHitsOf sem)) id)) = _
  apply hitIds_filterMap_lookup
  intro id hid
  have hmem : id ∈ fusedOrder k term sem := (pySlice_sublist _ _ _).subset hid
  exact (mem_fusedOrder k term sem id).mp hmem

/-! ### Lemmas: payload resolution vs the spec rule -/

theorem lexFold_lookup : ∀ (L : List Hit), (hitIds L).Nodup →
    ∀ (d : HitDict) (id : Int),
      hitDictGet? (L.foldl (fun d h => hitDictSet d h.line_id h) d) id =
        match hitFind? L id with
        | some h => some h
        | none => hitDictGet? d id := by
  intro L
  induction L with
  | nil => intro _ d id; simp [hitFind?]
  | cons h rest ih =>
    intro hL d id
    simp only [List.foldl_cons]
    rw [ih (nodup_hitIds_cons hL).2]
    by_cases hh : h.line_id = id
    · have hnone : hitFind? rest id = none :=
        (hitFind?_eq_none_iff rest id).mpr (fun hc => (nodup_hitIds_cons hL).1 (hh ▸ hc))
      simp [hitFind?, hh, hnone, hitDictGet?_set]
    · simp only [hitFind?, if_neg hh]
      cases hf : hitFind? rest id with
      | some h' => rfl
      | none => simp [hitDictGet?_set, hh]

theorem semFold_lookup (S : List Hit) :
    ∀ (d : HitDict) (id : Int),
      hitDictGet? (S.foldl hitDictSetIfAbsent d) id =
        match hitDictGet? d id with
        | some h => some h
        | none => hitFind? S id := by
  induction S with
  | nil => intro d id; cases hd : hitDictGet? d id <;> simp [hitFind?, hd]
  | cons h rest ih =>
    intro d id
    simp only [List.foldl_cons]
    rw [ih, hitDictGet?_setIfAbsent]
    cases hd : hitDictGet? d id with
    | some h' => rfl
    | none =>
      by_cases hh : h.line_id = id
      · simp [hitFind?, hh]
      · simp [hitFind?, hh]

theorem hitDictGet?_hitsById (L S : List Hit) (hL : (hitIds L).Nodup) (id : Int) :
    hitDictGet? (hitsById L S) id = preferLexical L S id := by
  unfold hitsById preferLexical
  rw [semFold_lookup, lexFold_lookup L hL]
  cases hitFind? L id with
  | some h => rfl
  | none => simp [hitDictGet?]

/-! ## Claim theorems -/

/-- C1: for every pair of input ranked lists (no duplicate identifiers, the
RankedList invariant) and rank constant `k > 0`, every identifier appearing
in the fused result has fused score `(1/(rank_in_L+k) if present else 0) +
(1/(rank_in_S+k) if present else 0)`; an identifier present in only one
list is neither penalized nor excluded (it appears, with just its own
contribution). -/
theorem C1_rrf_fused_score (k : ℚ) (hk : 0 < k) (term sem : SearchResult)
    (hL : (hitIds term.hits).Nodup) (hS : (hitIds sem.hits).Nodup) (id : Int) :
    (id ∈ fusedOrder k term (some sem) ↔
        id ∈ hitIds term.hits ∨ id ∈ hitIds sem.hits)
    ∧ (id ∈ fusedOrder k term (some sem) →
        dictGetD (fusedScores k term (some sem)) id =
          rankContrib k term.hits id + rankContrib k sem.hits id) := by
  refine ⟨?_, fun _ => fusedScores_getD k term sem hL hS id⟩
  simpa [semHitsOf] using mem_fusedOrder k term (some sem) id

/-- Witness for C1 at the spec's §8 worked example (identifier 2 is in both
lists). -/
theorem C1_rrf_fused_score_witness :
    (2 ∈ fusedOrder 60 sampleLex (some sampleSem) ↔
        2 ∈ hitIds sampleLex.hits ∨ 2 ∈ hitIds sampleSem.hits)
    ∧ dictGetD (fusedScores 60 sampleLex (some sampleSem)) 2 =
        rankContrib 60 sampleLex.hits 2 + rankContrib 60 sampleSem.hits 2 :=
  ⟨(C1_rrf_fused_score 60 (by norm_num) sampleLex sampleSem
      (by norm_num [hitIds, sampleLex, mkHit]) (by norm_num [hitIds, sampleSem, mkHit]) 2).1,
   (C1_rrf_fused_score 60 (by norm_num) sampleLex sampleSem
      (by norm_num [hitIds, sampleLex, mkHit]) (by norm_num [hitIds, sampleSem, mkHit]) 2).2
     ((C1_rrf_fused_score 60 (by norm_num) sampleLex sampleSem
        (by norm_num [hitIds, sampleLex, mkHit]) (by norm_num [hitIds, sampleSem, mkHit]) 2).1.mpr
       (Or.inl (by norm_num [hitIds, sampleLex, mkHit])))⟩

/-- C2: fusion is deterministic.  In the model it is a pure function, so two
calls on identical inputs and configuration give identical output; and the
tie rule is fixed: identifiers with equal fused scores keep the key
insertion order (lexical hits in rank order, then new semantic hits in rank
order), because CPython dict keys iterate in insertion order and `sorted` is
stable. -/
theorem C2_fuse_deterministic (k : ℚ) (term : SearchResult)
    (sem : Option SearchResult) (f s : Int) (a b : Int)
    (hpair : List.Sublist [a, b] (dictKeys (fusedScores k term sem)))
    (htie : dictGetD (fusedScores k term sem) a = dictGetD (fusedScores k term sem) b) :
    rrfFuse k term sem f s = rrfFuse k term sem f s
    ∧ List.Sublist [a, b] (fusedOrder k term sem) := by
  refine ⟨rfl, ?_⟩
  unfold fusedOrder sortedLineIds
  exact List.pair_sublist_insertionSort (le_of_eq htie.symm) hpair

/-- Witness for C2: two identifiers with tied score `1/(1+60)`, one from
each source; the tie resolves to key insertion order `[1, 2]`. -/
theorem C2_fuse_deterministic_witness :
    rrfFuse 60 tieLex (some tieSem) 0 20 = rrfFuse 60 tieLex (some tieSem) 0 20
    ∧ List.Sublist [1, 2] (fusedOrder 60 tieLex (some tieSem)) :=
  C2_fuse_deterministic 60 tieLex (some tieSem) 0 20 1 2
    (by
      have hkeys : dictKeys (fusedScores 60 tieLex (some tieSem)) = [1, 2] := by
        norm_num [dictKeys, fusedScores, scoreHits, dictAdd, semHitsOf, tieLex,
          tieSem, mkHit, rrfContrib]
      rw [hkeys])
    (by
      norm_num [dictGetD, fusedScores, scoreHits, dictAdd, semHitsOf, tieLex,
        tieSem, mkHit, rrfContrib])

/-- C3: when the semantic source is unavailable (`none`) or its hit list is
empty, fusion behaves exactly as with an empty semantic ranked list (no
failure), and the fused order equals the lexical list's original order,
because `1/(rank+k)` is strictly decreasing in rank for `k > 0` and the
sort is stable. -/
theorem C3_degrades_to_lexical (k : ℚ) (hk : 0 < k) (term : SearchResult)
    (sem : Option SearchResult) (hsem : semHitsOf sem = [])
    (hnd : (hitIds term.hits).Nodup) (f s : Int) :
    fusedOrder k term sem = hitIds term.hits
    ∧ rrfFuse k term sem f s = rrfFuse k term none f s := by
  constructor
  · exact fusedOrder_semEmpty k hk term sem hsem hnd
  · unfold rrfFuse fusedOrder fusedScores
    rw [hsem]
    rfl

/-- Witness for C3: the sample lexical list fused with a missing semantic
source keeps order `[1, 2, 3]`. -/
theorem C3_degrades_to_lexical_witness :
    fusedOrder 60 sampleLex none = hitIds sampleLex.hits
    ∧ rrfFuse 60 sampleLex none 0 20 = rrfFuse 60 sampleLex none 0 20 :=
  C3_degrades_to_lexical 60 (by norm_num) sampleLex none rfl
    (by norm_num [hitIds, sampleLex, mkHit]) 0 20

/-- C4 counterexample: the code has no configuration validation at all.
With pageSize = 0 — a configuration the claim says must fail with
`InvalidConfig` — `search_shakespeare_hybrid` still returns a fused result
(total 4, empty page, lexical aggregations) and raises nothing. -/
theorem C4_counterexample_no_validation :
    search_shakespeare_hybrid sampleLex (some sampleSem) 0 0 =
      { total := 4, hits := [], aggregations := [("Hamlet", 5)] } := by
  norm_num [search_shakespeare_hybrid, rrfFuse, fusedOrder, fusedScores, sortedLineIds,
    scoreHits, dictAdd, dictGetD, rrfContrib, List.insertionSort, List.orderedInsert,
    hitsById, hitDictSet, hitDictSetIfAbsent, hitDictGet?, pySlice, pyBound, semHitsOf,
    sampleLex, sampleSem, mkHit, List.filterMap]

/-- C4 (amended): the fusion code performs no configuration validation and
never raises InvalidConfig.  The rank constant and candidate depth are
hardcoded (60 and 100); every pageOffset and pageSize is accepted, the page
being computed with Python slice semantics — pageSize = 0 yields an empty
hits list while the total and aggregations are still returned. -/
theorem C4_amended_no_config_validation (k : ℚ) (term : SearchResult)
    (sem : Option SearchResult) (f : Int) :
    (rrfFuse k term sem f 0).hits = []
    ∧ ∀ s : Int, (rrfFuse k term sem f s).total = (fusedOrder k term sem).length
        ∧ (rrfFuse k term sem f s).aggregations = term.aggregations := by
  refine ⟨?_, fun s => ⟨rfl, rfl⟩⟩
  show (pySlice (fusedOrder k term sem) f (f + 0)).filterMap
      (fun id => hitDictGet? (hitsById term.hits (semHitsOf sem)) id) = []
  rw [add_zero, pySlice_self_empty]
  rfl

/-- C5: pagination is the slice `[offset, offset+size)` of the fused
identifier order: for a fixed page size `s` with `m * s` equal to the
number of distinct identifiers, the pages at offsets `0, s, 2s, ...`
concatenate to exactly the full fused order, which has no duplicates —
hence no gaps and no double-served hits. -/
theorem C5_pagination_partition (term : SearchResult) (sem : Option SearchResult)
    (s m : ℕ) (hs : 0 < s) (hm : m * s = (fusedOrder 60 term sem).length) :
    (List.range m).flatMap
        (fun i => hitIds (search_shakespeare_hybrid term sem
          ((i * s : ℕ) : ℤ) ((s : ℕ) : ℤ)).hits)
      = fusedOrder 60 term sem
    ∧ (fusedOrder 60 term sem).Nodup := by
  refine ⟨?_, nodup_fusedOrder 60 term sem⟩
  have hpage : ∀ i : ℕ,
      hitIds (search_shakespeare_hybrid term sem ((i * s : ℕ) : ℤ) ((s : ℕ) : ℤ)).hits
        = pySlice (fusedOrder 60 term sem) ((i * s : ℕ) : ℤ) (((i * s : ℕ) : ℤ) + (s : ℕ)) :=
    fun i => rrfFuse_hitIds 60 term sem _ _
  simp only [hpage]
  rw [pySlice_concat_take, hm, List.take_length]

/-- Witness for C5: the worked example's four fused identifiers split into
two pages of two. -/
theorem C5_pagination_partition_witness :
    (List.range 2).flatMap
        (fun i => hitIds (search_shakespeare_hybrid sampleLex (some sampleSem)
          ((i * 2 : ℕ) : ℤ) ((2 : ℕ) : ℤ)).hits)
      = fusedOrder 60 sampleLex (some sampleSem)
    ∧ (fusedOrder 60 sampleLex (some sampleSem)).Nodup :=
  C5_pagination_partition sampleLex (some sampleSem) 2 2 (by norm_num)
    (by norm_num [fusedOrder, fusedScores, sortedLineIds, scoreHits, dictAdd, dictGetD,
      rrfContrib, List.insertionSort, List.orderedInsert, semHitsOf, sampleLex,
      sampleSem, mkHit])

/-- C6: each hit of the returned page is a whole Hit object resolved by
source preference — the lexical list's object when the identifier occurs
there, else the semantic list's object; nothing is merged field-by-field. -/
theorem C6_payload_prefers_lexical (term : SearchResult) (sem : Option SearchResult)
    (f s : Int) (hL : (hitIds term.hits).Nodup) :
    (search_shakespeare_hybrid term sem f s).hits =
      (pySlice (fusedOrder 60 term sem) f (f + s)).filterMap
        (preferLexical term.hits (semHitsOf sem)) := by
  show (pySlice (fusedOrder 60 term sem) f (f + s)).filterMap
      (fun id => hitDictGet? (hitsById term.hits (semHitsOf sem)) id) = _
  congr 1
  funext id
  exact hitDictGet?_hitsById term.hits (semHitsOf sem) hL id

/-- Witness for C6 at the worked example. -/
theorem C6_payload_prefers_lexical_witness :
    (search_shakespeare_hybrid sampleLex (some sampleSem) 0 20).hits =
      (pySlice (fusedOrder 60 sampleLex (some sampleSem)) 0 (0 + 20)).filterMap
        (preferLexical sampleLex.hits (semHitsOf (some sampleSem))) :=
  C6_payload_prefers_lexical sampleLex (some sampleSem) 0 20
    (by norm_num [hitIds, sampleLex, mkHit])

/-- C7: for input ranked lists without duplicate identifiers, every
identifier — including one present in both lists — appears exactly once in
the fused order, and the returned page never contains a duplicate. -/
theorem C7_no_duplicates (term : SearchResult) (sem : Option SearchResult) (f s : Int)
    (hL : (hitIds term.hits).Nodup) (hS : (hitIds (semHitsOf sem)).Nodup) :
    (fusedOrder 60 term sem).Nodup
    ∧ (hitIds (search_shakespeare_hybrid term sem f s).hits).Nodup
    ∧ ∀ id, (id ∈ hitIds term.hits ∨ id ∈ hitIds (semHitsOf sem)) →
        (fusedOrder 60 term sem).count id = 1 := by
  refine ⟨nodup_fusedOrder 60 term sem, ?_, ?_⟩
  · show (hitIds (rrfFuse 60 term sem f s).hits).Nodup
    rw [rrfFuse_hitIds]
    exact (nodup_fusedOrder 60 term sem).sublist (pySlice_sublist _ _ _)
  · intro id hid
    exact List.count_eq_one_of_mem (nodup_fusedOrder 60 term sem)
      ((mem_fusedOrder 60 term sem id).mpr hid)

/-- Witness for C7 at the worked example (identifier 2 is in both lists). -/
theorem C7_no_duplicates_witness :
    (fusedOrder 60 sampleLex (some sampleSem)).Nodup
    ∧ (hitIds (search_shakespeare_hybrid sampleLex (some sampleSem) 0 20).hits).Nodup
    ∧ (fusedOrder 60 sampleLex (some sampleSem)).count 2 = 1 :=
  ⟨(C7_no_duplicates sampleLex (some sampleSem) 0 20
      (by norm_num [hitIds, sampleLex, mkHit])
      (by norm_num [hitIds, semHitsOf, sampleSem, mkHit])).1,
   (C7_no_duplicates sampleLex (some sampleSem) 0 20
      (by norm_num [hitIds, sampleLex, mkHit])
      (by norm_num [hitIds, semHitsOf, sampleSem, mkHit])).2.1,
   (C7_no_duplicates sampleLex (some sampleSem) 0 20
      (by norm_num [hitIds, sampleLex, mkHit])
      (by norm_num [hitIds, semHitsOf, sampleSem, mkHit])).2.2 2
     (Or.inl (by norm_num [hitIds, sampleLex, mkHit]))⟩

/-- C8: with both input lists empty the hybrid search returns an empty
result — total 0 and an empty hits list — rather than an error (the model
is a total function; the code path raises nothing). -/
theorem C8_both_empty (term : SearchResult) (sem : Option SearchResult) (f s : Int)
    (hterm : term.hits = []) (hsem : semHitsOf sem = []) :
    (search_shakespeare_hybrid term sem f s).total = 0
    ∧ (search_shakespeare_hybrid term sem f s).hits = [] := by
  have horder : fusedOrder 60 term sem = [] := by
    unfold fusedOrder fusedScores sortedLineIds
    rw [hsem, hterm]
    rfl
  constructor
  · show (fusedOrder 60 term sem).length = 0
    rw [horder]
    rfl
  · show (pySlice (fusedOrder 60 term sem) f (f + s)).filterMap
        (fun id => hitDictGet? (hitsById term.hits (semHitsOf sem)) id) = []
    rw [horder]
    simp [pySlice, pyBound]

/-- Witness for C8 with concrete empty inputs. -/
theorem C8_both_empty_witness :
    (search_shakespeare_hybrid { total := 0, hits := [], aggregations := [] } none 0 20).total = 0
    ∧ (search_shakespeare_hybrid { total := 0, hits := [], aggregations := [] } none 0 20).hits = [] :=
  C8_both_empty { total := 0, hits := [], aggregations := [] } none 0 20 rfl rfl

/-- C9: the hybrid `total` is the number of distinct identifiers among the
retrieved candidate hits — not the engine's total match count (changing the
engine-reported total changes nothing) — and with at most 100 candidates
per source it is bounded by 200. -/
theorem C9_total_is_candidate_count (term : SearchResult) (sem : Option SearchResult)
    (f s : Int) :
    (search_shakespeare_hybrid term sem f s).total =
      ((hitIds term.hits ++ hitIds (semHitsOf sem)).dedup).length
    ∧ (∀ t : Nat,
        search_shakespeare_hybrid { term with total := t } sem f s =
          search_shakespeare_hybrid term sem f s)
    ∧ (term.hits.length ≤ 100 → (semHitsOf sem).length ≤ 100 →
        (search_shakespeare_hybrid term sem f s).total ≤ 200) := by
  have htot : (search_shakespeare_hybrid term sem f s).total =
      ((hitIds term.hits ++ hitIds (semHitsOf sem)).dedup).length := by
    show (fusedOrder 60 term sem).length = _
    rw [length_fusedOrder]
    have hnd := nodup_fusedScores_keys 60 term sem
    have hfin : (dictKeys (fusedScores 60 term sem)).toFinset =
        (hitIds term.hits ++ hitIds (semHitsOf sem)).toFinset := by
      ext id
      simp only [List.mem_toFinset, List.mem_append]
      exact mem_fusedScores_keys 60 term sem id
    calc (dictKeys (fusedScores 60 term sem)).length
        = (dictKeys (fusedScores 60 term sem)).toFinset.card :=
          (List.toFinset_card_of_nodup hnd).symm
      _ = (hitIds term.hits ++ hitIds (semHitsOf sem)).toFinset.card := by rw [hfin]
      _ = ((hitIds term.hits ++ hitIds (semHitsOf sem)).dedup).length :=
          List.card_toFinset _
  refine ⟨htot, fun t => rfl, fun h1 h2 => ?_⟩
  rw [htot]
  have hd : ((hitIds term.hits ++ hitIds (semHitsOf sem)).dedup).length ≤
      (hitIds term.hits ++ hitIds (semHitsOf sem)).length :=
    (List.dedup_sublist _).length_le
  have hlen : (hitIds term.hits ++ hitIds (semHitsOf sem)).length ≤ 200 := by
    rw [List.length_append]
    simp only [hitIds, List.length_map]
    omega
  omega

/-- Witness for C9 at the worked example (3 + 2 candidate hits, 4 distinct
identifiers, bound respected). -/
theorem C9_total_is_candidate_count_witness :
    (search_shakespeare_hybrid sampleLex (some sampleSem) 0 20).total =
      ((hitIds sampleLex.hits ++ hitIds (semHitsOf (some sampleSem))).dedup).length
    ∧ (search_shakespeare_hybrid sampleLex (some sampleSem) 0 20).total ≤ 200 :=
  ⟨(C9_total_is_candidate_count sampleLex (some sampleSem) 0 20).1,
   (C9_total_is_candidate_count sampleLex (some sampleSem) 0 20).2.2
     (by norm_num [sampleLex, mkHit]) (by norm_num [semHitsOf, sampleSem, mkHit])⟩

/-- C10: the hybrid response's aggregations are exactly the lexical
search's aggregations; replacing the semantic result list by any other
leaves them unchanged. -/
theorem C10_aggregations_from_lexical (term : SearchResult) (sem : Option SearchResult)
    (f s : Int) :
    (search_shakespeare_hybrid term sem f s).aggregations = term.aggregations
    ∧ ∀ sem₂ : Option SearchResult,
        (search_shakespeare_hybrid term sem f s).aggregations =
          (search_shakespeare_hybrid term sem₂ f s).aggregations :=
  ⟨rfl, fun _ => rfl⟩
